import Mathlib

/-
Verification of the morton-nd LUT-based Morton encoder
(include/morton-nd/mortonND_LUT_encoder.h) against its specification.

The C++ code is embedded shallowly over Nat. All arithmetic in the source
runs on unsigned types wide enough for the values produced under a valid
configuration (the static_assert block guarantees the result type holds
Dimensions * FieldBits bits, and table entries fit their storage type, which
is proved below), so Nat models the machine arithmetic exactly on the
domains the claims quantify over.
-/

namespace MortonND

/-- Width in bits of std::size_t on the target platform (64-bit). -/
def sizeTDigits : Nat := 64

/-- Embedding of mortonnd::SplitByN (mortonND_LUT_encoder.h lines 37-48).
The C++ template takes BitsRemaining as a template parameter with a
specialization at 1; the template is only ever instantiated with
BitsRemaining >= 1 (it is called with LutBits, and LutBits >= 1 is a
static_assert), so the value at 0 here is arbitrary.
`SplitByN n input fields` distributes the low `n` bits of `input` with
stride `fields`. -/
def SplitByN : Nat → Nat → Nat → Nat
  | 0, _, _ => 0
  | 1, input, _ => input &&& 1
  | (n+2), input, fields => (SplitByN (n+1) (input >>> 1) fields <<< fields) ||| (input &&& 1)

/-- Embedding of the template parameters of MortonNDLutEncoder together with
the traits of the value type `T` that the static_assert block inspects.
The model fixes `T` to an unsigned-or-signed integral type of `TDigits`
value bits (the spec data model, section 3, declares ValueType an integral
type); `TSizeConstructible` records whether std::size_t is constructible
from `T`. -/
structure Config where
  Dimensions : Nat
  FieldBits : Nat
  LutBits : Nat
  TDigits : Nat
  TSigned : Bool
  TSizeConstructible : Bool

/-- Embedding of `LutValueWidth = LutBits * Dimensions` (line 127). -/
def LutValueWidth (c : Config) : Nat := c.LutBits * c.Dimensions

/-- Embedding of `ChunkCount = 1 + ((FieldBits - 1) / LutBits)` (line 163). -/
def ChunkCount (c : Config) : Nat := 1 + (c.FieldBits - 1) / c.LutBits

/-- Embedding of `ChunkMask = ~size_t(0) >> (digits - LutBits)` (line 274). -/
def ChunkMask (c : Config) : Nat :=
  (2 ^ sizeTDigits - 1) >>> (sizeTDigits - c.LutBits)

/-- Embedding of `InputMask() = ~T(0) >> (digits<T> - FieldBits)` (lines 169-172). -/
def InputMask (c : Config) : Nat :=
  (2 ^ c.TDigits - 1) >>> (c.TDigits - c.FieldBits)

/-- Embedding of the private `pow` helper (lines 265-267). -/
def powImpl : Nat → Nat → Nat
  | _, 0 => 1
  | base, (e+1) => base * powImpl base e

/-- Embedding of `ComputeLutSize() = pow(2, LutBits)` / `LutSize` (lines 269-273). -/
def LutSize (c : Config) : Nat := powImpl 2 c.LutBits

/-- Modelled from the spec: the `MinInt` width-selection helper lives in
mortonND_LUT.h, which is not under src/. Per the spec (sections 1 and 6) it
returns the narrowest native unsigned integer type able to hold the given
bit width; native widths are 8, 16, 32 and 64. -/
def minIntWidth (w : Nat) : Nat :=
  if w ≤ 8 then 8 else if w ≤ 16 then 16 else if w ≤ 32 then 32 else 64

/-- Narrowing conversion into the LUT entry type `LutValue = MinInt<LutValueWidth>`
(line 180); unsigned narrowing in C++ reduces modulo 2^width. -/
def toLutValue (c : Config) (x : Nat) : Nat :=
  x % 2 ^ minIntWidth (LutValueWidth c)

/-- Embedding of the member `SplitByN(input) = mortonnd::SplitByN<LutBits>(input, Dimensions)`
stored as a `LutValue` (lines 256-258). -/
def MemberSplitByN (c : Config) (input : Nat) : Nat :=
  toLutValue c (SplitByN c.LutBits input c.Dimensions)

/-- Embedding of `BuildLut` / `LookupTable` (lines 260-263, 275): the array
with entry `i` equal to `SplitByN(i)` for `i` in `0 .. LutSize - 1`. -/
def LookupTable (c : Config) : List Nat :=
  (List.range (LutSize c)).map (fun i => MemberSplitByN c i)

/-- Embedding of the `LookupField` overloads (lines 234-252). The C++ code
passes an index sequence of length `ChunkCount` whose element values are
ignored; only the number of remaining pack elements drives the recursion,
so the model recurses on that count. -/
def LookupField (c : Config) (field : Nat) : Nat → Nat
  | 0 => 0
  | 1 => (LookupTable c).getD (field &&& ChunkMask c) 0
  | (n+2) =>
      ((LookupField c (field >>> c.LutBits) (n+1)) <<< (c.Dimensions * c.LutBits)) |||
        (LookupTable c).getD (field &&& ChunkMask c) 0

/-- Embedding of the `EncodeInternal` overloads (lines 223-232) over the list
of fields; the empty case never arises (`Encode` requires `Dimensions >= 1`
arguments). -/
def EncodeInternal (c : Config) : List Nat → Nat
  | [] => 0
  | [f] => LookupField c f (ChunkCount c)
  | f :: rest => ((EncodeInternal c rest) <<< 1) ||| LookupField c f (ChunkCount c)

/-- Embedding of `Encode` (lines 215-220): the fields are supplied as a list
whose length the theorems constrain to `Dimensions` (the C++ arity
static_assert). -/
def Encode (c : Config) (fields : List Nat) : Nat := EncodeInternal c fields

/-- Arithmetic part of a valid configuration: the numeric constraints of the
static_assert block (lines 129-142) that the encoding theorems rely on. -/
def ArithValid (c : Config) : Prop :=
  0 < c.Dimensions ∧ 0 < c.FieldBits ∧ 0 < c.LutBits ∧
    c.LutBits ≤ c.FieldBits ∧ c.LutBits ≤ 32 ∧ LutValueWidth c ≤ 64 ∧
    c.Dimensions * c.FieldBits ≤ c.TDigits

instance (c : Config) : Decidable (ArithValid c) := by
  unfold ArithValid; infer_instance

/-- Embedding of the full static_assert block (lines 129-149): the
configuration is accepted (the class instantiates) exactly when every
assert holds. For an integral `T`, `std::is_constructible<std::size_t, T>`
is tracked by the `TSizeConstructible` trait field. -/
def StaticAssertsHold (c : Config) : Prop :=
  0 < c.Dimensions ∧ 0 < c.FieldBits ∧ 0 < c.LutBits ∧
    c.LutBits ≤ c.FieldBits ∧ c.LutBits ≤ 32 ∧
    LutValueWidth c ≤ 64 ∧ LutValueWidth c ≤ sizeTDigits ∧
    c.Dimensions * c.FieldBits ≤ c.TDigits ∧
    c.TSigned = false ∧ c.TSizeConstructible = true

/-- Written from the words of claim C5 (spec section 4.2): the list of
conditions under which construction must be rejected. -/
def SpecRejects (c : Config) : Prop :=
  c.Dimensions = 0 ∨ c.FieldBits = 0 ∨ c.LutBits = 0 ∨
    c.FieldBits < c.LutBits ∨ 32 < c.LutBits ∨
    (64 < c.Dimensions * c.LutBits ∨ sizeTDigits < c.Dimensions * c.LutBits) ∨
    c.TSigned = true ∨ c.TDigits < c.Dimensions * c.FieldBits ∨
    c.TSizeConstructible = false

/-- Written from the words of the spec result contract (section 4.2) and
claim C1: the value whose bit at position `k + Dimensions * b` is bit `b`
of field `k`, all bits at positions at least `Dimensions * FieldBits`
being zero. `natFromBits v N` assembles the number with bit `p` equal to
`v p` for `p < N`. -/
def natFromBits (v : Nat → Bool) : Nat → Nat
  | 0 => 0
  | (N+1) => (v 0).toNat + 2 * natFromBits (fun i => v (i+1)) N

/-- Reference bit-by-bit interleaver, written from the words of the spec:
position `p = k + Dimensions * b` (with `k < Dimensions`) decomposes as
`k = p % Dimensions`, `b = p / Dimensions`. -/
def naiveInterleave (D F : Nat) (fs : List Nat) : Nat :=
  natFromBits (fun p => (fs.getD (p % D) 0).testBit (p / D)) (D * F)

/-- Count of table accesses performed by `LookupField` as a function of the
number of index-sequence elements passed to it (mirrors the recursion of
`LookupField`, lines 239-252: one access per overload invocation). -/
def LookupFieldAccesses : Nat → Nat
  | 0 => 0
  | 1 => 1
  | (n+2) => LookupFieldAccesses (n+1) + 1

/-! ### Basic closed forms -/

theorem powImpl_eq (b : Nat) : ∀ e, powImpl b e = b ^ e
  | 0 => rfl
  | (e+1) => by rw [powImpl, powImpl_eq b e, pow_succ, Nat.mul_comm]

theorem lutSize_eq (c : Config) : LutSize c = 2 ^ c.LutBits := powImpl_eq 2 c.LutBits

theorem chunkMask_eq (c : Config) (h : c.LutBits ≤ 64) :
    ChunkMask c = 2 ^ c.LutBits - 1 := by
  unfold ChunkMask sizeTDigits
  apply Nat.eq_of_testBit_eq
  intro i
  rw [Nat.testBit_shiftRight, Nat.testBit_two_pow_sub_one, Nat.testBit_two_pow_sub_one]
  rw [decide_eq_decide]
  omega

theorem inputMask_eq (c : Config) (h : c.FieldBits ≤ c.TDigits) :
    InputMask c = 2 ^ c.FieldBits - 1 := by
  unfold InputMask
  apply Nat.eq_of_testBit_eq
  intro i
  rw [Nat.testBit_shiftRight, Nat.testBit_two_pow_sub_one, Nat.testBit_two_pow_sub_one]
  rw [decide_eq_decide]
  omega

/-- Bits of a value at or above its power-of-two bound are clear. -/
theorem testBit_false_of_lt {x n i : Nat} (hx : x < 2 ^ n) (hi : n ≤ i) :
    x.testBit i = false :=
  Nat.testBit_lt_two_pow (lt_of_lt_of_le hx (Nat.pow_le_pow_right (by norm_num) hi))

/-! ### SplitByN: bound and bit-level characterization -/

/-- Value bound for the bit spreader: the low `n` source bits spread with
stride `s` occupy at most `(n-1)*s + 1` result bits. -/
theorem splitByN_lt : ∀ (n : Nat), 1 ≤ n → ∀ (input s : Nat),
    SplitByN n input s < 2 ^ ((n - 1) * s + 1)
  | 0, h, _, _ => absurd h (by omega)
  | 1, _, input, s => by
      have h2 : input % 2 < 2 := Nat.mod_lt _ (by norm_num)
      simpa [SplitByN, Nat.and_one_is_mod] using h2
  | (n+2), _, input, s => by
      have ih := splitByN_lt (n+1) (by omega) (input >>> 1) s
      have hrec : SplitByN (n+2) input s
          = (SplitByN (n+1) (input >>> 1) s <<< s) ||| (input &&& 1) := by
        simp [SplitByN]
      rw [hrec]
      have h1 : SplitByN (n+1) (input >>> 1) s <<< s < 2 ^ ((n + 1) * s + 1) := by
        rw [Nat.shiftLeft_eq]
        calc SplitByN (n+1) (input >>> 1) s * 2 ^ s
            < 2 ^ (n * s + 1) * 2 ^ s :=
              mul_lt_mul_of_pos_right (by simpa using ih) (by positivity)
          _ = 2 ^ ((n + 1) * s + 1) := by rw [← pow_add]; ring_nf
      have h2 : input &&& 1 < 2 ^ ((n + 1) * s + 1) := by
        have hlt : input &&& 1 < 2 := by
          rw [Nat.and_one_is_mod]; exact Nat.mod_lt _ (by norm_num)
        calc input &&& 1 < 2 ^ 1 := by simpa using hlt
          _ ≤ 2 ^ ((n + 1) * s + 1) :=
              Nat.pow_le_pow_right (by norm_num) (by omega)
      simpa using Nat.or_lt_two_pow h1 h2

/-- Bit-level characterization of the bit spreader: result bit `j` is set
exactly when `j` is a multiple of the stride and the corresponding source
bit `j / s` (below `n`) is set. -/
theorem splitByN_testBit : ∀ (n : Nat), 1 ≤ n → ∀ (s : Nat), 1 ≤ s → ∀ (input j : Nat),
    ((SplitByN n input s).testBit j = true ↔
      (j % s = 0 ∧ j / s < n ∧ input.testBit (j / s) = true))
  | 0, h, _, _, _, _ => absurd h (by omega)
  | 1, _, s, hs, input, j => by
      have h1 : SplitByN 1 input s = input % 2 ^ 1 := by
        simp [SplitByN, Nat.and_one_is_mod]
      rw [h1, Nat.testBit_mod_two_pow]
      simp only [Bool.and_eq_true, decide_eq_true_eq]
      constructor
      · rintro ⟨hj, hb⟩
        have hj0 : j = 0 := by omega
        subst hj0
        exact ⟨Nat.zero_mod s, by simp [Nat.zero_div], by simpa [Nat.zero_div] using hb⟩
      · rintro ⟨h0, h1', hb⟩
        have hdm := Nat.div_add_mod j s
        have hj0 : j = 0 := by
          rw [Nat.lt_one_iff.mp h1', h0] at hdm
          omega
        subst hj0
        exact ⟨by simp [Nat.zero_div], by simpa [Nat.zero_div] using hb⟩
  | (n+2), _, s, hs, input, j => by
      have hrec : SplitByN (n+2) input s
          = (SplitByN (n+1) (input >>> 1) s <<< s) ||| (input &&& 1) := by
        simp [SplitByN]
      have hlow : ∀ (jj : Nat), ((input &&& 1).testBit jj = true ↔
          (jj = 0 ∧ input.testBit 0 = true)) := by
        intro jj
        rw [show input &&& 1 = input % 2 ^ 1 from by simp [Nat.and_one_is_mod]]
        rw [Nat.testBit_mod_two_pow]
        simp only [Bool.and_eq_true, decide_eq_true_eq]
        constructor
        · rintro ⟨hj, hb⟩
          have : jj = 0 := by omega
          subst this
          exact ⟨rfl, hb⟩
        · rintro ⟨rfl, hb⟩
          exact ⟨by omega, hb⟩
      have ih := splitByN_testBit (n+1) (by omega) s hs (input >>> 1)
      rw [hrec, Nat.testBit_or]
      simp only [Bool.or_eq_true, Bool.and_eq_true, decide_eq_true_eq,
        Nat.testBit_shiftLeft, hlow, ih, Nat.testBit_shiftRight]
      rcases Nat.lt_or_ge j s with hj | hj
      · rcases Nat.eq_zero_or_pos j with rfl | hjpos
        · have hns : ¬ s ≤ 0 := by omega
          simp [hns, Nat.zero_div, Nat.zero_mod, show 0 < n + 2 from by omega]
        · have h1 : ¬ s ≤ j := by omega
          have h2 : j % s = j := Nat.mod_eq_of_lt hj
          constructor
          · rintro (⟨hsle, -⟩ | ⟨rfl, -⟩)
            · exact absurd hsle h1
            · omega
          · rintro ⟨h0, -, -⟩
            rw [h2] at h0
            omega
      · obtain ⟨m, rfl⟩ : ∃ m, j = s + m := ⟨j - s, by omega⟩
        have hsub : s + m - s = m := by omega
        have hmod : (s + m) % s = m % s := Nat.add_mod_left s m
        have hdiv : (s + m) / s = m / s + 1 := by
          rw [Nat.add_comm s m]
          exact Nat.add_div_right m hs
        have hsle : s ≤ s + m := by omega
        have hne : ¬ (s + m = 0) := by omega
        rw [hsub, hmod, hdiv]
        simp only [hsle, true_and, hne, false_and, or_false]
        constructor
        · rintro ⟨a, b, t⟩
          exact ⟨a, Nat.succ_lt_succ b, by rwa [Nat.add_comm] at t⟩
        · rintro ⟨a, b, t⟩
          exact ⟨a, Nat.lt_of_succ_lt_succ b, by rwa [Nat.add_comm] at t⟩

/-! ### Bit characterization of the reference interleaver -/

theorem natFromBits_testBit : ∀ (N : Nat) (v : Nat → Bool) (q : Nat),
    (natFromBits v N).testBit q = (decide (q < N) && v q)
  | 0, v, q => by simp [natFromBits]
  | (N+1), v, q => by
      have hb : (v 0).toNat < 2 := by cases v 0 <;> simp
      cases q with
      | zero =>
          rw [natFromBits, Nat.testBit_zero]
          have hmod : ((v 0).toNat + 2 * natFromBits (fun i => v (i+1)) N) % 2
              = (v 0).toNat := by omega
          rw [hmod]
          cases h : v 0 <;> simp
      | succ q =>
          rw [natFromBits, Nat.testBit_add_one]
          have hdiv : ((v 0).toNat + 2 * natFromBits (fun i => v (i+1)) N) / 2
              = natFromBits (fun i => v (i+1)) N := by omega
          rw [hdiv, natFromBits_testBit N]
          rw [show (decide (q < N)) = (decide (q + 1 < N + 1)) from
            decide_eq_decide.mpr (by omega)]

/-! ### Lookup table contents -/

theorem le_minIntWidth {w : Nat} (h : w ≤ 64) : w ≤ minIntWidth w := by
  unfold minIntWidth
  split
  · omega
  · split
    · omega
    · split
      · omega
      · omega

/-- Spread values fit in `LutValueWidth` bits, so the narrowing store into
the LUT entry type is lossless. -/
theorem splitByN_lt_lutWidth (c : Config) (hD : 0 < c.Dimensions) (hL : 0 < c.LutBits)
    (input : Nat) :
    SplitByN c.LutBits input c.Dimensions < 2 ^ LutValueWidth c := by
  have hle : (c.LutBits - 1) * c.Dimensions + 1 ≤ LutValueWidth c := by
    obtain ⟨l, hl⟩ : ∃ l, c.LutBits = l + 1 := ⟨c.LutBits - 1, by omega⟩
    unfold LutValueWidth
    rw [hl, Nat.succ_mul]
    simp only [Nat.add_sub_cancel]
    omega
  exact lt_of_lt_of_le (splitByN_lt c.LutBits hL input c.Dimensions)
    (Nat.pow_le_pow_right (by norm_num) hle)

theorem memberSplitByN_eq (c : Config) (hD : 0 < c.Dimensions) (hL : 0 < c.LutBits)
    (hW : LutValueWidth c ≤ 64) (input : Nat) :
    MemberSplitByN c input = SplitByN c.LutBits input c.Dimensions := by
  unfold MemberSplitByN toLutValue
  exact Nat.mod_eq_of_lt (lt_of_lt_of_le (splitByN_lt_lutWidth c hD hL input)
    (Nat.pow_le_pow_right (by norm_num) (le_minIntWidth hW)))

theorem lookupTable_length (c : Config) : (LookupTable c).length = 2 ^ c.LutBits := by
  unfold LookupTable
  rw [List.length_map, List.length_range, lutSize_eq]

theorem lookupTable_getD (c : Config) (hD : 0 < c.Dimensions) (hL : 0 < c.LutBits)
    (hW : LutValueWidth c ≤ 64) (i : Nat) (hi : i < 2 ^ c.LutBits) :
    (LookupTable c).getD i 0 = SplitByN c.LutBits i c.Dimensions := by
  have hi' : i < LutSize c := by rwa [lutSize_eq]
  unfold LookupTable
  rw [List.getD_eq_getElem?_getD, List.getElem?_map, List.getElem?_range hi']
  simp only [Option.map_some', Option.getD_some]
  exact memberSplitByN_eq c hD hL hW i

/-! ### LookupField: bit-level characterization -/

/-- The width of the LUT input never exceeds 64 bits under a valid width
product. -/
theorem lutBits_le_64 (c : Config) (hD : 0 < c.Dimensions)
    (hW : LutValueWidth c ≤ 64) : c.LutBits ≤ 64 :=
  le_trans (Nat.le_mul_of_pos_right _ hD) hW

/-- Characterization of a single chunk lookup `LookupTable[field & ChunkMask]`:
its bit `j` is bit `j / Dimensions` of the low `LutBits` bits of `field`,
present only when `j` is a multiple of `Dimensions`. -/
theorem lookupLow_testBit (c : Config) (hD : 0 < c.Dimensions) (hL : 0 < c.LutBits)
    (hW : LutValueWidth c ≤ 64) (field j : Nat) :
    (((LookupTable c).getD (field &&& ChunkMask c) 0).testBit j = true ↔
      (j % c.Dimensions = 0 ∧ j / c.Dimensions < c.LutBits ∧
        field.testBit (j / c.Dimensions) = true)) := by
  rw [chunkMask_eq c (lutBits_le_64 c hD hW), Nat.and_pow_two_sub_one_eq_mod]
  rw [lookupTable_getD c hD hL hW _ (Nat.mod_lt _ (Nat.pos_pow_of_pos _ (by norm_num)))]
  rw [splitByN_testBit c.LutBits hL c.Dimensions hD]
  simp only [Nat.testBit_mod_two_pow, Bool.and_eq_true, decide_eq_true_eq]
  tauto

/-- Bit-level characterization of `LookupField` called with `m` chunk
indices: writing `j = cc * (Dimensions * LutBits) + r`, bit `j` of the
result is bit `cc * LutBits + r / Dimensions` of `field`, present when
`cc < m` and `r` is a multiple of `Dimensions`. -/
theorem lookupField_testBit (c : Config) (hD : 0 < c.Dimensions) (hL : 0 < c.LutBits)
    (hW : LutValueWidth c ≤ 64) :
    ∀ (m : Nat), 1 ≤ m → ∀ (field j : Nat),
    ((LookupField c field m).testBit j = true ↔
      (j / (c.Dimensions * c.LutBits) < m ∧
        (j % (c.Dimensions * c.LutBits)) % c.Dimensions = 0 ∧
        field.testBit ((j / (c.Dimensions * c.LutBits)) * c.LutBits +
          (j % (c.Dimensions * c.LutBits)) / c.Dimensions) = true))
  | 0, h, _, _ => absurd h (by omega)
  | 1, _, field, j => by
      have hDL : 0 < c.Dimensions * c.LutBits := Nat.mul_pos hD hL
      rw [show LookupField c field 1
          = (LookupTable c).getD (field &&& ChunkMask c) 0 from rfl]
      rw [lookupLow_testBit c hD hL hW]
      constructor
      · rintro ⟨h0, h1, hq⟩
        have hjlt : j < c.Dimensions * c.LutBits := by
          rw [Nat.mul_comm]
          exact (Nat.div_lt_iff_lt_mul hD).mp h1
        have hmod : j % (c.Dimensions * c.LutBits) = j := Nat.mod_eq_of_lt hjlt
        have hdiv : j / (c.Dimensions * c.LutBits) = 0 := Nat.div_eq_of_lt hjlt
        refine ⟨by rw [hdiv]; omega, by rw [hmod]; exact h0, ?_⟩
        rw [hdiv, hmod]
        simpa using hq
      · rintro ⟨h1, h0, hq⟩
        have hjlt : j < c.Dimensions * c.LutBits := by
          have := (Nat.div_lt_iff_lt_mul hDL).mp h1
          omega
        have hmod : j % (c.Dimensions * c.LutBits) = j := Nat.mod_eq_of_lt hjlt
        have hdiv : j / (c.Dimensions * c.LutBits) = 0 := Nat.div_eq_of_lt hjlt
        rw [hmod] at h0
        rw [hdiv, hmod] at hq
        refine ⟨h0, ?_, by simpa using hq⟩
        rw [Nat.div_lt_iff_lt_mul hD, Nat.mul_comm]
        exact hjlt
  | (m+2), _, field, j => by
      have hDL : 0 < c.Dimensions * c.LutBits := Nat.mul_pos hD hL
      have hrec : LookupField c field (m+2)
          = ((LookupField c (field >>> c.LutBits) (m+1)) <<<
              (c.Dimensions * c.LutBits)) |||
            (LookupTable c).getD (field &&& ChunkMask c) 0 := by
        simp [LookupField]
      have ih := lookupField_testBit c hD hL hW (m+1) (by omega) (field >>> c.LutBits)
      rw [hrec, Nat.testBit_or]
      simp only [Bool.or_eq_true, Bool.and_eq_true, decide_eq_true_eq,
        Nat.testBit_shiftLeft, ih, lookupLow_testBit c hD hL hW,
        Nat.testBit_shiftRight]
      rcases Nat.lt_or_ge j (c.Dimensions * c.LutBits) with hj | hj
      · have hnle : ¬ c.Dimensions * c.LutBits ≤ j := by omega
        have hmod : j % (c.Dimensions * c.LutBits) = j := Nat.mod_eq_of_lt hj
        have hdiv : j / (c.Dimensions * c.LutBits) = 0 := Nat.div_eq_of_lt hj
        rw [hmod, hdiv]
        simp only [hnle, false_and, false_or, Nat.zero_mul, Nat.zero_add]
        constructor
        · rintro ⟨h0, h1, hq⟩
          exact ⟨by omega, h0, hq⟩
        · rintro ⟨-, h0, hq⟩
          refine ⟨h0, ?_, hq⟩
          rw [Nat.div_lt_iff_lt_mul hD, Nat.mul_comm]
          exact hj
      · obtain ⟨j', rfl⟩ : ∃ j', j = c.Dimensions * c.LutBits + j' :=
          ⟨j - c.Dimensions * c.LutBits, by omega⟩
        have hsub : c.Dimensions * c.LutBits + j' - c.Dimensions * c.LutBits = j' := by
          omega
        have hmod : (c.Dimensions * c.LutBits + j') % (c.Dimensions * c.LutBits)
            = j' % (c.Dimensions * c.LutBits) := Nat.add_mod_left _ _
        have hdiv : (c.Dimensions * c.LutBits + j') / (c.Dimensions * c.LutBits)
            = j' / (c.Dimensions * c.LutBits) + 1 := by
          rw [Nat.add_comm]
          exact Nat.add_div_right _ hDL
        have hhigh : ¬ ((c.Dimensions * c.LutBits + j') / c.Dimensions < c.LutBits) := by
          rw [Nat.not_lt, Nat.le_div_iff_mul_le hD]
          calc c.LutBits * c.Dimensions = c.Dimensions * c.LutBits := Nat.mul_comm _ _
            _ ≤ c.Dimensions * c.LutBits + j' := Nat.le_add_right _ _
        have hidx : (j' / (c.Dimensions * c.LutBits) + 1) * c.LutBits +
            (j' % (c.Dimensions * c.LutBits)) / c.Dimensions
            = c.LutBits + ((j' / (c.Dimensions * c.LutBits)) * c.LutBits +
              (j' % (c.Dimensions * c.LutBits)) / c.Dimensions) := by ring
        rw [hsub, hmod, hdiv, hidx]
        simp only [hj, true_and, hhigh, false_and, and_false, or_false]
        constructor
        · rintro ⟨h1, h0, hq⟩
          exact ⟨by omega, h0, hq⟩
        · rintro ⟨h1, h0, hq⟩
          exact ⟨by omega, h0, hq⟩

/-! ### EncodeInternal: bit-level characterization -/

/-- Decomposition of `EncodeInternal` over the field list: bit `p` of the
result comes from the chunk lookups of field `k` shifted left by `k`. -/
theorem encodeInternal_testBit (c : Config) :
    ∀ (fs : List Nat), fs ≠ [] → ∀ (p : Nat),
    ((EncodeInternal c fs).testBit p = true ↔
      ∃ k, k < fs.length ∧ k ≤ p ∧
        (LookupField c (fs.getD k 0) (ChunkCount c)).testBit (p - k) = true)
  | [], h, _ => absurd rfl h
  | [f], _, p => by
      rw [show EncodeInternal c [f] = LookupField c f (ChunkCount c) from rfl]
      constructor
      · intro ht
        exact ⟨0, by simp, Nat.zero_le p, by simpa using ht⟩
      · rintro ⟨k, hk, hkp, ht⟩
        have hk0 : k = 0 := by
          simp only [List.length_singleton] at hk
          omega
        subst hk0
        simpa using ht
  | (f :: g :: rest), _, p => by
      have hrec : EncodeInternal c (f :: g :: rest)
          = ((EncodeInternal c (g :: rest)) <<< 1) ||| LookupField c f (ChunkCount c) := by
        simp [EncodeInternal]
      rw [hrec, Nat.testBit_or]
      simp only [Bool.or_eq_true, Bool.and_eq_true, decide_eq_true_eq,
        Nat.testBit_shiftLeft]
      rw [encodeInternal_testBit c (g :: rest) (by simp) (p - 1)]
      constructor
      · rintro (⟨hp1, ⟨k, hk, hkp, ht⟩⟩ | ht)
        · refine ⟨k + 1, by simpa using hk, by omega, ?_⟩
          rw [show p - (k + 1) = p - 1 - k from by omega]
          simpa using ht
        · exact ⟨0, by simp, Nat.zero_le _, by simpa using ht⟩
      · rintro ⟨k, hk, hkp, ht⟩
        cases k with
        | zero =>
            right
            simpa using ht
        | succ k =>
            left
            refine ⟨by omega, ⟨k, by simpa using hk, by omega, ?_⟩⟩
            rw [show p - 1 - k = p - (k + 1) from by omega]
            simpa using ht

/-- Master characterization of `Encode`: bit `p` of the encoding is bit
`p / Dimensions` of field `p % Dimensions`, as long as that source bit is
among the `ChunkCount * LutBits` low bits the chunk lookups read. -/
theorem encode_testBit (c : Config) (hD : 0 < c.Dimensions)
    (hL : 0 < c.LutBits) (hW : LutValueWidth c ≤ 64)
    (fs : List Nat) (hlen : fs.length = c.Dimensions) (p : Nat) :
    ((Encode c fs).testBit p = true ↔
      (p / c.Dimensions < ChunkCount c * c.LutBits ∧
        (fs.getD (p % c.Dimensions) 0).testBit (p / c.Dimensions) = true)) := by
  have hne : fs ≠ [] := by
    intro h
    rw [h] at hlen
    simp only [List.length_nil] at hlen
    omega
  have hCC : 1 ≤ ChunkCount c := Nat.le_add_right 1 _
  rw [Encode, encodeInternal_testBit c fs hne p]
  constructor
  · rintro ⟨k, hk, hkp, ht⟩
    rw [lookupField_testBit c hD hL hW _ hCC] at ht
    obtain ⟨h1, h0, hq⟩ := ht
    have hdvd : c.Dimensions ∣ c.Dimensions * c.LutBits := Dvd.intro _ rfl
    rw [Nat.mod_mod_of_dvd _ hdvd] at h0
    obtain ⟨t, htt⟩ := Nat.dvd_of_mod_eq_zero h0
    have hp : p = k + c.Dimensions * t := by omega
    have hkD : k < c.Dimensions := by rw [← hlen]; exact hk
    have hpmod : p % c.Dimensions = k := by
      rw [hp, Nat.add_mul_mod_self_left]
      exact Nat.mod_eq_of_lt hkD
    have hpdiv : p / c.Dimensions = t := by
      rw [hp, Nat.add_mul_div_left _ _ hD, Nat.div_eq_of_lt hkD, Nat.zero_add]
    rw [htt, Nat.mul_div_mul_left _ _ hD] at h1
    rw [htt, Nat.mul_div_mul_left _ _ hD, Nat.mul_mod_mul_left,
      Nat.mul_div_cancel_left _ hD] at hq
    have hidx : t / c.LutBits * c.LutBits + t % c.LutBits = t := by
      rw [Nat.mul_comm]
      exact Nat.div_add_mod t c.LutBits
    rw [hidx] at hq
    rw [hpmod, hpdiv]
    exact ⟨(Nat.div_lt_iff_lt_mul hL).mp h1, hq⟩
  · rintro ⟨h1, hq⟩
    have hkD : p % c.Dimensions < c.Dimensions := Nat.mod_lt _ hD
    refine ⟨p % c.Dimensions, by rw [hlen]; exact hkD, Nat.mod_le p _, ?_⟩
    rw [lookupField_testBit c hD hL hW _ hCC]
    have hp : p - p % c.Dimensions = c.Dimensions * (p / c.Dimensions) := by
      have := Nat.div_add_mod p c.Dimensions
      omega
    rw [hp, Nat.mul_div_mul_left _ _ hD, Nat.mul_mod_mul_left]
    refine ⟨(Nat.div_lt_iff_lt_mul hL).mpr h1, Nat.mul_mod_right _ _, ?_⟩
    rw [Nat.mul_div_cancel_left _ hD]
    have hidx : p / c.Dimensions / c.LutBits * c.LutBits +
        p / c.Dimensions % c.LutBits = p / c.Dimensions := by
      rw [Nat.mul_comm]
      exact Nat.div_add_mod _ c.LutBits
    rw [hidx]
    exact hq

/-! ### Encode equals the reference interleaver on in-range inputs -/

theorem testBit_eq_of_iff {a b : Bool} (h : (a = true) ↔ (b = true)) : a = b := by
  cases a <;> cases b <;> simp_all

/-- The chunk lookups together read at least `FieldBits` low bits of each
field: `FieldBits ≤ ChunkCount * LutBits`. -/
theorem fieldBits_le_chunkSpan (c : Config) (hF : 0 < c.FieldBits) (hL : 0 < c.LutBits) :
    c.FieldBits ≤ ChunkCount c * c.LutBits := by
  unfold ChunkCount
  have hdm := Nat.div_add_mod (c.FieldBits - 1) c.LutBits
  have hr : (c.FieldBits - 1) % c.LutBits < c.LutBits := Nat.mod_lt _ hL
  rw [Nat.add_mul, Nat.one_mul, Nat.mul_comm ((c.FieldBits - 1) / c.LutBits) c.LutBits]
  omega

theorem getD_mem {l : List Nat} {i : Nat} (h : i < l.length) : l.getD i 0 ∈ l := by
  rw [List.getD_eq_getElem?_getD, List.getElem?_eq_getElem h]
  simp only [Option.getD_some]
  exact List.getElem_mem h

/-- Core correctness: on in-range inputs the encoder computes exactly the
bit-by-bit interleave of its fields. -/
theorem encode_eq_naive (c : Config) (hD : 0 < c.Dimensions) (hF : 0 < c.FieldBits)
    (hL : 0 < c.LutBits) (hW : LutValueWidth c ≤ 64)
    (fs : List Nat) (hlen : fs.length = c.Dimensions)
    (hin : ∀ f ∈ fs, f < 2 ^ c.FieldBits) :
    Encode c fs = naiveInterleave c.Dimensions c.FieldBits fs := by
  apply Nat.eq_of_testBit_eq
  intro p
  have hchar := encode_testBit c hD hL hW fs hlen p
  rw [naiveInterleave, natFromBits_testBit]
  cases hb : (fs.getD (p % c.Dimensions) 0).testBit (p / c.Dimensions) with
  | false =>
      cases hE : (Encode c fs).testBit p with
      | false => simp
      | true =>
          obtain ⟨-, hq⟩ := hchar.mp hE
          rw [hb] at hq
          exact absurd hq Bool.false_ne_true
  | true =>
      have hmem : fs.getD (p % c.Dimensions) 0 ∈ fs :=
        getD_mem (by rw [hlen]; exact Nat.mod_lt _ hD)
      have hflt := hin _ hmem
      have hpdF : p / c.Dimensions < c.FieldBits := by
        by_contra hge
        have hzero := testBit_false_of_lt hflt (Nat.le_of_not_lt hge)
        rw [hzero] at hb
        exact absurd hb Bool.false_ne_true
      have hpf : p < c.Dimensions * c.FieldBits := by
        have := (Nat.div_lt_iff_lt_mul hD).mp hpdF
        rwa [Nat.mul_comm] at this
      have hcond : p / c.Dimensions < ChunkCount c * c.LutBits :=
        lt_of_lt_of_le hpdF (fieldBits_le_chunkSpan c hF hL)
      rw [hchar.mpr ⟨hcond, hb⟩]
      simp [hpf]

/-- The encoding has no bits at positions `Dimensions * FieldBits` and above
when the inputs are in range. -/
theorem encode_high_bits_zero (c : Config) (hD : 0 < c.Dimensions)
    (hL : 0 < c.LutBits) (hW : LutValueWidth c ≤ 64)
    (fs : List Nat) (hlen : fs.length = c.Dimensions)
    (hin : ∀ f ∈ fs, f < 2 ^ c.FieldBits)
    (p : Nat) (hp : c.Dimensions * c.FieldBits ≤ p) :
    (Encode c fs).testBit p = false := by
  cases hE : (Encode c fs).testBit p with
  | false => rfl
  | true =>
      obtain ⟨-, hq⟩ := (encode_testBit c hD hL hW fs hlen p).mp hE
      have hmem : fs.getD (p % c.Dimensions) 0 ∈ fs :=
        getD_mem (by rw [hlen]; exact Nat.mod_lt _ hD)
      have hge : c.FieldBits ≤ p / c.Dimensions := by
        rw [Nat.le_div_iff_mul_le hD, Nat.mul_comm]
        exact hp
      have hzero := testBit_false_of_lt (hin _ hmem) hge
      rw [hzero] at hq
      exact absurd hq Bool.false_ne_true

/-- Positional form of correctness: bit `k + Dimensions * b` of the encoding
is bit `b` of field `k`. -/
theorem encode_testBit_pos (c : Config) (hD : 0 < c.Dimensions) (hF : 0 < c.FieldBits)
    (hL : 0 < c.LutBits) (hW : LutValueWidth c ≤ 64)
    (fs : List Nat) (hlen : fs.length = c.Dimensions)
    (k b : Nat) (hk : k < c.Dimensions) (hb : b < c.FieldBits) :
    (Encode c fs).testBit (k + c.Dimensions * b) = (fs.getD k 0).testBit b := by
  have hmod : (k + c.Dimensions * b) % c.Dimensions = k := by
    rw [Nat.add_mul_mod_self_left]
    exact Nat.mod_eq_of_lt hk
  have hdiv : (k + c.Dimensions * b) / c.Dimensions = b := by
    rw [Nat.add_mul_div_left _ _ hD, Nat.div_eq_of_lt hk, Nat.zero_add]
  apply testBit_eq_of_iff
  rw [encode_testBit c hD hL hW fs hlen, hmod, hdiv]
  have hcond : b < ChunkCount c * c.LutBits :=
    lt_of_lt_of_le hb (fieldBits_le_chunkSpan c hF hL)
  constructor
  · rintro ⟨-, hq⟩
    exact hq
  · intro hq
    exact ⟨hcond, hq⟩

/-- LookupField performs exactly one table access per index-sequence
element. -/
theorem lookupFieldAccesses_id : ∀ (m : Nat), 1 ≤ m → LookupFieldAccesses m = m
  | 0, h => absurd h (by omega)
  | 1, _ => rfl
  | (m+2), _ => by
      rw [LookupFieldAccesses, lookupFieldAccesses_id (m+1) (by omega)]

/-! ### Claim theorems -/

/-- C1: for every valid configuration and every tuple of `Dimensions` fields
each using no more than `FieldBits` low bits, `Encode` returns the value
whose bit at position `k + Dimensions * b` equals bit `b` of field `k` for
all `b < FieldBits`, `k < Dimensions`, whose bits at positions at least
`Dimensions * FieldBits` are all zero, and which therefore equals the naive
bit-by-bit interleave of the fields. -/
theorem C1_encode_is_naive_interleave (c : Config) (hv : ArithValid c)
    (fs : List Nat) (hlen : fs.length = c.Dimensions)
    (hin : ∀ f ∈ fs, f < 2 ^ c.FieldBits) :
    Encode c fs = naiveInterleave c.Dimensions c.FieldBits fs ∧
    (∀ k b, k < c.Dimensions → b < c.FieldBits →
      (Encode c fs).testBit (k + c.Dimensions * b) = (fs.getD k 0).testBit b) ∧
    (∀ p, c.Dimensions * c.FieldBits ≤ p → (Encode c fs).testBit p = false) := by
  obtain ⟨hD, hF, hL, -, -, hW, -⟩ := hv
  exact ⟨encode_eq_naive c hD hF hL hW fs hlen hin,
    fun k b hk hb => encode_testBit_pos c hD hF hL hW fs hlen k b hk hb,
    fun p hp => encode_high_bits_zero c hD hL hW fs hlen hin p hp⟩

theorem C1_witness :
    ArithValid ⟨2, 8, 4, 16, false, true⟩ ∧
    Encode ⟨2, 8, 4, 16, false, true⟩ [5, 9]
      = naiveInterleave 2 8 [5, 9] :=
  ⟨by decide,
    (C1_encode_is_naive_interleave ⟨2, 8, 4, 16, false, true⟩ (by decide)
      [5, 9] (by decide) (by decide)).1⟩

/-- C2: for a fixed `(Dimensions, FieldBits)` and a fixed in-range input
tuple, every valid choice of `LutBits` (and value type) yields an identical
`Encode` result: chunk width never affects the encoded value. -/
theorem C2_chunking_invariance (c1 c2 : Config) (hv1 : ArithValid c1)
    (hv2 : ArithValid c2) (hDim : c1.Dimensions = c2.Dimensions)
    (hFB : c1.FieldBits = c2.FieldBits)
    (fs : List Nat) (hlen : fs.length = c1.Dimensions)
    (hin : ∀ f ∈ fs, f < 2 ^ c1.FieldBits) :
    Encode c1 fs = Encode c2 fs := by
  obtain ⟨hD1, hF1, hL1, -, -, hW1, -⟩ := hv1
  obtain ⟨hD2, hF2, hL2, -, -, hW2, -⟩ := hv2
  rw [encode_eq_naive c1 hD1 hF1 hL1 hW1 fs hlen hin,
    encode_eq_naive c2 hD2 hF2 hL2 hW2 fs (by rw [hlen, hDim])
      (by rw [← hFB]; exact hin), hDim, hFB]

theorem C2_witness :
    Encode ⟨2, 16, 4, 32, false, true⟩ [300, 41]
      = Encode ⟨2, 16, 8, 32, false, true⟩ [300, 41] :=
  C2_chunking_invariance ⟨2, 16, 4, 32, false, true⟩ ⟨2, 16, 8, 32, false, true⟩
    (by decide) (by decide) rfl rfl [300, 41] rfl (by decide)

/-- C3: the bit spreader satisfies the stated recurrence (base case
`remainingBits = 1` returns `input &&& 1`, recursive case shifts by the
stride and ors in the low bit), and for every input fitting in
`remainingBits` bits and stride at least 1, reading the result in
LSB-upward groups of `stride` bits, bit 0 of group `g` is bit `g` of the
input and every other bit of every group is zero. -/
theorem C3_spreader_recurrence_and_groups :
    (∀ input s, SplitByN 1 input s = input &&& 1) ∧
    (∀ n input s, 1 ≤ n → SplitByN (n+1) input s
        = ((SplitByN n (input >>> 1) s) <<< s) ||| (input &&& 1)) ∧
    (∀ n s input, 1 ≤ n → 1 ≤ s → input < 2 ^ n → ∀ g i, i < s →
      (SplitByN n input s).testBit (g * s + i)
        = if i = 0 then input.testBit g else false) := by
  refine ⟨fun input s => rfl, ?_, ?_⟩
  · intro n input s hn
    obtain ⟨m, rfl⟩ : ∃ m, n = m + 1 := ⟨n - 1, by omega⟩
    simp [SplitByN]
  · intro n s input hn hs hin g i hi
    have heq1 : (g * s + i) % s = i := by
      rw [Nat.add_comm, Nat.mul_comm, Nat.add_mul_mod_self_left]
      exact Nat.mod_eq_of_lt hi
    have heq2 : (g * s + i) / s = g := by
      rw [Nat.add_comm, Nat.mul_comm, Nat.add_mul_div_left _ _ hs,
        Nat.div_eq_of_lt hi, Nat.zero_add]
    apply testBit_eq_of_iff
    rw [splitByN_testBit n hn s hs input (g * s + i), heq1, heq2]
    by_cases hi0 : i = 0
    · subst hi0
      simp only [if_pos rfl]
      constructor
      · rintro ⟨-, -, h⟩
        exact h
      · intro h
        refine ⟨by trivial, ?_, h⟩
        by_contra hgn
        have hzero := testBit_false_of_lt hin (Nat.le_of_not_lt hgn)
        rw [hzero] at h
        exact absurd h Bool.false_ne_true
    · simp only [if_neg hi0]
      constructor
      · rintro ⟨h0, -, -⟩
        exact absurd h0 hi0
      · intro h
        exact absurd h Bool.false_ne_true

theorem C3_witness :
    (1:Nat) ≤ 3 ∧ (1:Nat) ≤ 2 ∧ (5:Nat) < 2 ^ 3 ∧ (0:Nat) < 2 ∧
    (SplitByN 3 5 2).testBit (2 * 2 + 0)
      = (if (0:Nat) = 0 then Nat.testBit 5 2 else false) :=
  ⟨by decide, by decide, by decide, by decide,
    C3_spreader_recurrence_and_groups.2.2 3 2 5 (by decide) (by decide)
      (by decide) 2 0 (by decide)⟩

/-- C4: for every valid configuration the lookup table is an ordered
sequence of exactly `2 ^ LutBits` entries whose entry `i` equals the
stride-`Dimensions` bit spread of `i` for every index `i`. (The model is a
pure value, matching the source, where the table is a `constexpr` array
never written after construction.) -/
theorem C4_lookup_table_contents (c : Config) (hv : ArithValid c) :
    (LookupTable c).length = 2 ^ c.LutBits ∧
    (∀ i, i < 2 ^ c.LutBits →
      (LookupTable c).getD i 0 = SplitByN c.LutBits i c.Dimensions) := by
  obtain ⟨hD, -, hL, -, -, hW, -⟩ := hv
  exact ⟨lookupTable_length c, fun i hi => lookupTable_getD c hD hL hW i hi⟩

theorem C4_witness :
    (LookupTable ⟨2, 8, 4, 16, false, true⟩).length = 2 ^ 4 ∧
    (LookupTable ⟨2, 8, 4, 16, false, true⟩).getD 7 0 = SplitByN 4 7 2 :=
  ⟨(C4_lookup_table_contents ⟨2, 8, 4, 16, false, true⟩ (by decide)).1,
    (C4_lookup_table_contents ⟨2, 8, 4, 16, false, true⟩ (by decide)).2 7 (by decide)⟩

/-- C5: the static_assert block accepts a configuration exactly when none of
the rejection conditions listed in the claim holds; since the conditions
live in static_assert declarations inside the class body, a violation is a
compile-time (construction-time) rejection, never a runtime error during
`Encode`. -/
theorem C5_rejection_exact (c : Config) : (¬ StaticAssertsHold c) ↔ SpecRejects c := by
  have key : StaticAssertsHold c ↔ ¬ SpecRejects c := by
    have hcomm := Nat.mul_comm c.LutBits c.Dimensions
    cases hsg : c.TSigned <;> cases hsc : c.TSizeConstructible <;>
      simp only [StaticAssertsHold, SpecRejects, LutValueWidth, sizeTDigits,
        hsg, hsc, not_or, Bool.true_eq_false, Bool.false_eq_true, not_false_iff,
        not_true, and_true, and_false, true_and, false_and, iff_false, not_and,
        Nat.not_lt, Nat.not_le] <;>
      constructor <;> intro h <;> omega
  exact (iff_not_comm.mp key).symm

/-- C6: for every valid configuration (the model fixes ValueType integral)
`InputMask()` is exactly `2 ^ FieldBits - 1`, including when `FieldBits`
equals the full width of the value type, and masking with it is
idempotent. -/
theorem C6_input_mask (c : Config) (hv : ArithValid c) :
    InputMask c = 2 ^ c.FieldBits - 1 ∧
    (∀ x : Nat, (x &&& InputMask c) &&& InputMask c = x &&& InputMask c) := by
  obtain ⟨hD, -, -, -, -, -, hT⟩ := hv
  have hFd : c.FieldBits ≤ c.TDigits :=
    le_trans (Nat.le_mul_of_pos_left _ hD) hT
  refine ⟨inputMask_eq c hFd, fun x => ?_⟩
  rw [Nat.and_assoc, Nat.and_self]

theorem C6_witness :
    InputMask ⟨3, 10, 5, 32, false, true⟩ = 2 ^ 10 - 1 ∧
    ((12345 &&& InputMask ⟨3, 10, 5, 32, false, true⟩) &&&
        InputMask ⟨3, 10, 5, 32, false, true⟩)
      = 12345 &&& InputMask ⟨3, 10, 5, 32, false, true⟩ :=
  ⟨(C6_input_mask ⟨3, 10, 5, 32, false, true⟩ (by decide)).1,
    (C6_input_mask ⟨3, 10, 5, 32, false, true⟩ (by decide)).2 12345⟩

/-- C7: with `Dimensions = 2`, `FieldBits = 8`, `LutBits = 4`,
`Encode(5, 9)` returns exactly `0b10010011 = 147`. -/
theorem C7_concrete_scenario : Encode ⟨2, 8, 4, 16, false, true⟩ [5, 9] = 147 := by
  decide

/-- C8: for positive `FieldBits` and `LutBits`, the formula
`1 + (FieldBits - 1) / LutBits` equals the ceiling of
`FieldBits / LutBits` (stated as the closed form `(F + L - 1) / L`
together with the two inequalities pinning the ceiling), and the number of
table accesses `LookupField` performs per field equals `ChunkCount`. -/
theorem C8_chunk_count_is_ceil (c : Config) (hF : 0 < c.FieldBits)
    (hL : 0 < c.LutBits) :
    ChunkCount c = (c.FieldBits + c.LutBits - 1) / c.LutBits ∧
    c.FieldBits ≤ ChunkCount c * c.LutBits ∧
    (ChunkCount c - 1) * c.LutBits < c.FieldBits ∧
    LookupFieldAccesses (ChunkCount c) = ChunkCount c := by
  refine ⟨?_, fieldBits_le_chunkSpan c hF hL, ?_, ?_⟩
  · unfold ChunkCount
    rw [show c.FieldBits + c.LutBits - 1 = (c.FieldBits - 1) + c.LutBits from by omega,
      Nat.add_div_right _ hL, Nat.add_comm]
  · unfold ChunkCount
    rw [Nat.add_sub_cancel_left]
    exact lt_of_le_of_lt (Nat.div_mul_le_self _ _) (by omega)
  · exact lookupFieldAccesses_id (ChunkCount c) (Nat.le_add_right 1 _)

theorem C8_witness :
    (0:Nat) < 10 ∧ (0:Nat) < 4 ∧
    ChunkCount ⟨1, 10, 4, 16, false, true⟩ = (10 + 4 - 1) / 4 :=
  ⟨by decide, by decide,
    (C8_chunk_count_is_ceil ⟨1, 10, 4, 16, false, true⟩ (by decide) (by decide)).1⟩

/-- C9: for every valid configuration and arbitrary (possibly dirty) inputs,
`Encode` depends only on the low `ChunkCount * LutBits` bits of each field:
masking every field with `2 ^ (ChunkCount * LutBits) - 1` never changes the
result, because every chunk lookup masks with `ChunkMask` before indexing
the table. -/
theorem C9_dirty_input_masking (c : Config) (hv : ArithValid c)
    (fs : List Nat) (hlen : fs.length = c.Dimensions) :
    Encode c fs = Encode c
      (fs.map (fun f => f &&& (2 ^ (ChunkCount c * c.LutBits) - 1))) := by
  obtain ⟨hD, -, hL, -, -, hW, -⟩ := hv
  apply Nat.eq_of_testBit_eq
  intro p
  apply testBit_eq_of_iff
  have hlen2 : (fs.map (fun f => f &&& (2 ^ (ChunkCount c * c.LutBits) - 1))).length
      = c.Dimensions := by rw [List.length_map, hlen]
  rw [encode_testBit c hD hL hW fs hlen p, encode_testBit c hD hL hW _ hlen2 p]
  have hidx : p % c.Dimensions < fs.length := by
    rw [hlen]
    exact Nat.mod_lt _ hD
  have hmapD : (fs.map (fun f => f &&& (2 ^ (ChunkCount c * c.LutBits) - 1))).getD
      (p % c.Dimensions) 0
      = (fs.getD (p % c.Dimensions) 0) &&& (2 ^ (ChunkCount c * c.LutBits) - 1) := by
    rw [List.getD_eq_getElem?_getD, List.getElem?_map, List.getElem?_eq_getElem hidx,
      List.getD_eq_getElem?_getD, List.getElem?_eq_getElem hidx]
    simp only [Option.map_some', Option.getD_some]
  rw [hmapD, Nat.and_pow_two_sub_one_eq_mod, Nat.testBit_mod_two_pow]
  constructor
  · rintro ⟨h1, hq⟩
    refine ⟨h1, ?_⟩
    rw [Bool.and_eq_true, decide_eq_true_eq]
    exact ⟨h1, hq⟩
  · rintro ⟨h1, hq⟩
    rw [Bool.and_eq_true, decide_eq_true_eq] at hq
    exact ⟨h1, hq.2⟩

theorem C9_witness :
    Encode ⟨2, 5, 4, 16, false, true⟩ [65535, 3]
      = Encode ⟨2, 5, 4, 16, false, true⟩
          ([65535, 3].map (fun f =>
            f &&& (2 ^ (ChunkCount ⟨2, 5, 4, 16, false, true⟩ * 4) - 1))) :=
  C9_dirty_input_masking ⟨2, 5, 4, 16, false, true⟩ (by decide) [65535, 3] rfl

/-- C10: for every valid configuration and table index `i < 2 ^ LutBits`,
the spread value is strictly below `2 ^ ((LutBits - 1) * Dimensions + 1)`,
hence fits in `Dimensions * LutBits` bits, so the narrowing store into the
LUT entry type loses no information. -/
theorem C10_lut_entries_fit (c : Config) (hv : ArithValid c)
    (i : Nat) (hi : i < 2 ^ c.LutBits) :
    SplitByN c.LutBits i c.Dimensions < 2 ^ ((c.LutBits - 1) * c.Dimensions + 1) ∧
    SplitByN c.LutBits i c.Dimensions % 2 ^ (c.Dimensions * c.LutBits)
      = SplitByN c.LutBits i c.Dimensions := by
  obtain ⟨hD, -, hL, -, -, hW, -⟩ := hv
  refine ⟨splitByN_lt c.LutBits hL i c.Dimensions, ?_⟩
  apply Nat.mod_eq_of_lt
  have hlt := splitByN_lt_lutWidth c hD hL i
  rwa [LutValueWidth, Nat.mul_comm] at hlt

theorem C10_witness :
    ArithValid ⟨3, 7, 7, 32, false, true⟩ ∧ (100:Nat) < 2 ^ 7 ∧
    SplitByN 7 100 3 % 2 ^ (3 * 7) = SplitByN 7 100 3 :=
  ⟨by decide, by decide,
    (C10_lut_entries_fit ⟨3, 7, 7, 32, false, true⟩ (by decide) 100 (by decide)).2⟩

end MortonND
